import Mathlib

/-!
# Verification of the `ice` route-pattern compiler and resolver

A shallow embedding of the routing core of `ice.py`: pattern
classification (`Router._normalize_pattern`), wildcard-route compilation
and matching (`WildcardRoute`, `Wildcard`), regex-route extraction
(`RegexRoute.match`), and the three-tier router (`Router.add`,
`Router.resolve`, `Router.contains_method`).

Text is modelled as `List Char` (named `Str` below).  Python regular
expressions used by the source are compiled by hand into executable
matchers with Python semantics: `$` matches at the end of the subject or
just before one trailing newline, `.` matches any character except
newline, negated classes such as `[^/]` do match newline, and
alternation/greedy quantifiers backtrack left to right.  Python's `\w`
and `\d` are modelled over the ASCII range (the source is only exercised
on ASCII route patterns).
-/

set_option autoImplicit false

namespace Ice

/-- Text, modelled as a list of characters. -/
abbrev Str := List Char

/-- A value extracted from a path: a verbatim string, a parsed integer, or
Python `None` (a regex group that did not participate in the match). -/
inductive Val : Type where
  | s : Str → Val
  | i : Int → Val
  | null : Val
deriving DecidableEq, Repr

/-- Named-argument mapping (Python `dict` with string keys). -/
abbrev KV := List (Str × Val)

/-- Python `d[k]` presence test / lookup: first (and only) binding of `k`. -/
def kvLookup (kw : KV) (n : Str) : Option Val :=
  (kw.find? (fun p => p.1 = n)).map (·.2)

/-- Python `d[k] = v`: overwrite the existing binding in place, else append. -/
def kvInsert (kw : KV) (n : Str) (v : Val) : KV :=
  match kw with
  | [] => [(n, v)]
  | (k, w) :: rest =>
      if k = n then (k, v) :: rest else (k, w) :: kvInsert rest n v

@[simp] theorem kvLookup_nil (n : Str) : kvLookup [] n = none := rfl

theorem kvLookup_cons (k : Str) (w : Val) (rest : KV) (m : Str) :
    kvLookup ((k, w) :: rest) m = if k = m then some w else kvLookup rest m := by
  simp only [kvLookup, List.find?]
  by_cases h : k = m <;> simp [h]

theorem kvLookup_kvInsert (kw : KV) (n m : Str) (v : Val) :
    kvLookup (kvInsert kw n v) m = if m = n then some v else kvLookup kw m := by
  induction kw with
  | nil =>
      by_cases h : m = n
      · subst h; simp [kvInsert, kvLookup_cons]
      · have h2 : ¬ (n = m) := fun hc => h hc.symm
        simp [kvInsert, kvLookup_cons, h, h2]
  | cons p rest ih =>
      obtain ⟨k, w⟩ := p
      by_cases hk : k = n
      · subst hk
        by_cases hm : m = k
        · subst hm; simp [kvInsert, kvLookup_cons]
        · have h2 : ¬ (k = m) := fun hc => hm hc.symm
          simp [kvInsert, kvLookup_cons, h2, hm]
      · by_cases hm : m = k
        · have hkm : k = m := hm.symm
          have hmn : ¬ (m = n) := fun hc => hk (hkm ▸ hc)
          simp [kvInsert, hk, kvLookup_cons, hkm, hmn]
        · have h2 : ¬ (k = m) := fun hc => hm hc.symm
          simp [kvInsert, hk, kvLookup_cons, h2, hm, ih]

/-- The five wildcard type tags of `Wildcard._types_re`. -/
inductive WType : Type where
  | str : WType
  | path : WType
  | int : WType
  | pint : WType   -- `+int`
  | nint : WType   -- `-int`
deriving DecidableEq, Repr

/-- ASCII decimal digit (Python `[0-9]`). -/
def isDig (c : Char) : Bool := '0'.toNat ≤ c.toNat && c.toNat ≤ '9'.toNat

/-- ASCII nonzero decimal digit (Python `[1-9]`). -/
def isPosDig (c : Char) : Bool := '1'.toNat ≤ c.toNat && c.toNat ≤ '9'.toNat

/-- Numeric value of a decimal digit character. -/
def digVal (c : Char) : Nat := c.toNat - '0'.toNat

/-- Character of a decimal digit value. -/
def digChar (d : Nat) : Char := Char.ofNat ('0'.toNat + d)

/-- Big-endian decimal value of a digit string. -/
def natOfDigits (l : Str) : Nat := l.foldl (fun a c => 10 * a + digVal c) 0

/-- Python `int(s)` on the argument shapes producible by the wildcard
fragments: an optional sign followed by one or more decimal digits.
(Python also strips whitespace and allows `_` separators; no capture of
the `int`/`+int`/`-int` fragments can contain those.) -/
def parseInt (s : Str) : Option Int :=
  match s with
  | [] => none
  | c :: rest =>
      if c = '-' then
        if rest ≠ [] ∧ rest.all isDig then some (-(natOfDigits rest : Int)) else none
      else if c = '+' then
        if rest ≠ [] ∧ rest.all isDig then some ((natOfDigits rest : Int)) else none
      else
        if (c :: rest).all isDig then some ((natOfDigits (c :: rest) : Int)) else none

/-- Canonical decimal rendering of a natural number (no leading zeros). -/
def natCanon (n : Nat) : Str :=
  if n = 0 then ['0'] else ((Nat.digits 10 n).map digChar).reverse

/-- Canonical decimal rendering of an integer: a minus sign for negative
numbers, no leading zeros. -/
def intCanon (i : Int) : Str :=
  if i < 0 then '-' :: natCanon i.natAbs else natCanon i.natAbs

/-! ## Wildcard fragments: `Wildcard._types_re`

Each of the five type tags maps to a capturing regex fragment:
`str ↦ ([^/]+)`, `path ↦ (.+)`, `int ↦ (0|[1-9][0-9]*)`,
`+int ↦ ([1-9][0-9]*)`, `-int ↦ (0|-?[1-9][0-9]*)`.
`candidates t s` lists the capture strings the fragment for `t` can take
from the front of subject `s`, in the backtracking order Python's engine
tries them: alternation branches left to right, greedy quantifiers
longest first. -/

/-- Nonempty prefixes of `run`, longest first — the backtracking order of
a greedy `X+`/`X*` quantifier over the maximal run it can consume. -/
def greedyPrefixes (run : Str) : List Str :=
  (List.range run.length).map (fun k => run.take (run.length - k))

/-- Branch `0` of the `int` / `-int` alternation. -/
def zeroCand (s : Str) : List Str :=
  match s with
  | c :: _ => if c = '0' then [['0']] else []
  | [] => []

/-- Captures of `[1-9][0-9]*` at the front of `s`, backtracking order. -/
def posCands (s : Str) : List Str :=
  match s with
  | c :: r => if isPosDig c then greedyPrefixes (c :: r.takeWhile isDig) else []
  | [] => []

/-- Captures of `-[1-9][0-9]*` at the front of `s` (the branch of `-?`
that consumes the minus sign, tried first because `?` is greedy). -/
def negCands (s : Str) : List Str :=
  match s with
  | c :: r => if c = '-' then (posCands r).map (fun cc => '-' :: cc) else []
  | [] => []

/-- All capture strings the fragment for type `t` can take from the front
of `s`, in Python backtracking order. -/
def candidates (t : WType) (s : Str) : List Str :=
  match t with
  | .str => greedyPrefixes (s.takeWhile (fun c => c ≠ '/'))
  | .path => greedyPrefixes (s.takeWhile (fun c => c ≠ '\n'))
  | .int => zeroCand s ++ posCands s
  | .pint => posCands s
  | .nint => zeroCand s ++ negCands s ++ posCands s

/-- `[1-9][0-9]*` as a full-string language: a positive integer literal
with no leading zero. -/
def posNum (s : Str) : Bool :=
  match s with
  | c :: r => isPosDig c && r.all isDig
  | [] => false

/-- The full-string language of the regex fragment for type `t` (the
segment language of the wildcard type). -/
def fragLang (t : WType) (s : Str) : Bool :=
  match t with
  | .str => !s.isEmpty && s.all (fun c => c ≠ '/')
  | .path => !s.isEmpty && s.all (fun c => c ≠ '\n')
  | .int => s = ['0'] || posNum s
  | .pint => posNum s
  | .nint => s = ['0'] || negLang s || posNum s
where
  /-- `-[1-9][0-9]*` as a full-string language. -/
  negLang (s : Str) : Bool :=
    match s with
    | c :: r => c = '-' && posNum r
    | [] => false

/-! ## Wildcard route compilation: `WildcardRoute` and `Wildcard` -/

/-- A parsed `<name:type>` wildcard token (`Wildcard.__init__`). -/
structure Wildcard : Type where
  name : Str
  ty : WType
deriving DecidableEq, Repr

/-- Registration-time errors (`RouteError`), carrying the offending name
or type and the full spec string. -/
inductive RouteError : Type where
  | invalidName : Str → Str → RouteError
  | invalidType : Str → Str → RouteError
deriving DecidableEq, Repr

/-- Python `\w` over ASCII: letters, digits, underscore. -/
def isWordChar (c : Char) : Bool := c.isAlphanum || c = '_'

/-- Python `[^\d\W]` over ASCII: a word character that is not a digit. -/
def isWordStart (c : Char) : Bool := c.isAlpha || c = '_'

/-- The core language of `Wildcard._name_re`, i.e. `[^\d\W]\w*|!|` as a
full-string match: an identifier, the single character `!`, or empty. -/
def nameCore (n : Str) : Bool :=
  match n with
  | [] => true
  | ['!'] => true
  | c :: r => isWordStart c && r.all isWordChar

/-- `Wildcard._name_re.search(name)` succeeds: the pattern is anchored
`^...$`, and Python's `$` also matches just before one trailing newline,
so a name consisting of a core match plus one final newline is accepted. -/
def nameOk (n : Str) : Bool :=
  nameCore n ||
    (match n.reverse with
     | c :: rest => if c = '\n' then nameCore rest.reverse else false
     | [] => false)

/-- Type-tag strings recognized by `Wildcard._types_re.keys()`. -/
def wtypeOfTag (t : Str) : Option WType :=
  if t = "str".data then some .str
  else if t = "path".data then some .path
  else if t = "int".data then some .int
  else if t = "+int".data then some .pint
  else if t = "-int".data then some .nint
  else none

/-- `spec[1:-1].split(':', 1)` followed by the empty-type default:
the name is the part before the first `:`, the type tag defaults to
`str` when absent or empty. -/
def splitSpec (inner : Str) : Str × Str :=
  let name := inner.takeWhile (fun c => c ≠ ':')
  let rest := inner.dropWhile (fun c => c ≠ ':')
  match rest with
  | ':' :: t => (name, if t = [] then "str".data else t)
  | _ => (name, "str".data)

/-- `Wildcard.__init__`: strip the angle brackets, split into name and
type, validate the name against `_name_re`, then the type against
`_types_re.keys()`; on failure raise a `RouteError` carrying the
offending name or type and the full spec string. -/
def wildcardInit (spec : Str) : Except RouteError Wildcard :=
  let inner := (spec.drop 1).dropLast
  let name := (splitSpec inner).1
  let tyTag := (splitSpec inner).2
  if nameOk name then
    match wtypeOfTag tyTag with
    | some t => .ok ⟨name, t⟩
    | none => .error (.invalidType tyTag spec)
  else .error (.invalidName name spec)

/-! ## Pattern tokenization: `WildcardRoute.tokens`

`_tokenize_re = re.compile(r'<[^<>/]*>|[^<>/]+|/|<|>')`; `findall` scans
left to right, at each position taking the first alternative that
matches, greedily. -/

/-- A character matched by `[^<>/]`. -/
def isPlain (c : Char) : Bool := c ≠ '<' && c ≠ '>' && c ≠ '/'

theorem length_dropWhile_le (p : Char → Bool) (l : Str) :
    (l.dropWhile p).length ≤ l.length := by
  induction l with
  | nil => simp
  | cons c r ih =>
      by_cases h : p c
      · simp only [List.dropWhile_cons, h, if_true]
        exact Nat.le_succ_of_le ih
      · simp [List.dropWhile_cons, h]

/-- The scanning loop of `findall`, with explicit fuel (each step
consumes at least one character, so `s.length` fuel always suffices;
the fuel keeps the recursion structural and hence computable by the
kernel). -/
def tokensGo : Nat → Str → List Str
  | 0, _ => []
  | _, [] => []
  | fuel + 1, c :: rest =>
      if c = '<' then
        -- try the first alternative `<[^<>/]*>`: a maximal plain run
        -- then `>`; the run contains no `>`, so no shorter run helps.
        match rest.dropWhile isPlain with
        | '>' :: rest2 =>
            (('<' :: rest.takeWhile isPlain) ++ ['>']) :: tokensGo fuel rest2
        | _ => ['<'] :: tokensGo fuel rest
      else if c = '>' then ['>'] :: tokensGo fuel rest
      else if c = '/' then ['/'] :: tokensGo fuel rest
      else (c :: rest.takeWhile isPlain) :: tokensGo fuel (rest.dropWhile isPlain)

/-- `WildcardRoute.tokens(pattern)`: split the pattern into wildcard
tokens `<[^<>/]*>`, maximal runs of other literal characters, and the
single characters `/`, `<`, `>`. -/
def tokens (s : Str) : List Str := tokensGo s.length s

/-- A compiled element of a wildcard route's regex: either an escaped
literal token or a wildcard fragment with its metadata. -/
inductive CompTok : Type where
  | lit : Str → CompTok
  | wild : Wildcard → CompTok
deriving DecidableEq, Repr

/-- The wildcard metadata of a compiled token list, in capture order
(`WildcardRoute._wildcards`). -/
def wildsOf (items : List CompTok) : List Wildcard :=
  items.filterMap (fun t => match t with | .wild w => some w | .lit _ => none)

/-- A compiled wildcard route (`WildcardRoute.__init__` output): the
token list of the anchored regex plus the callback. -/
structure WcRoute (H : Type) : Type where
  items : List CompTok
  cb : H

/-- `WildcardRoute.__init__`: tokenize the pattern; parse each
angle-bracket token as a `Wildcard` (whose `RouteError` propagates),
treat every other token as a regex-escaped literal. -/
def wcCompile {H : Type} (pattern : Str) (cb : H) : Except RouteError (WcRoute H) := do
  let toks := tokens pattern
  let items ← toks.mapM (fun t =>
    if t ≠ [] ∧ t.head? = some '<' ∧ t.getLast? = some '>' then
      (wildcardInit t).map .wild
    else
      pure (.lit t))
  return ⟨items, cb⟩

/-! ## Wildcard route matching: `WildcardRoute.match`

The compiled regex is `^` + fragments/escaped literals + `$`, run with
`re.search`.  `^` pins the match to position 0; `$` accepts the end of
the subject or the position just before one final newline.  `matchToks`
is the backtracking matcher, returning the fragment captures in order. -/

/-- Backtracking match of the compiled token list against `s`, anchored
on the left, with Python `$` semantics on the right.  Returns the list
of captures, one per wildcard token, in occurrence order. -/
def matchToks : List CompTok → Str → Option (List Str)
  | [], s => if s = [] ∨ s = ['\n'] then some [] else none
  | .lit l :: ts, s =>
      if l.isPrefixOf s then matchToks ts (s.drop l.length) else none
  | .wild w :: ts, s =>
      (candidates w.ty s).findSome?
        (fun cap => (matchToks ts (s.drop cap.length)).map (fun caps => cap :: caps))

/-- `Wildcard.value`: `str` and `path` yield the capture verbatim, the
integer types parse it with Python `int()` (which can in principle
fail, modelling the `ValueError` a malformed capture would raise). -/
def wvalue (t : WType) (cap : Str) : Option Val :=
  match t with
  | .str => some (.s cap)
  | .path => some (.s cap)
  | _ => (parseInt cap).map .i

/-- The capture-walking loop of `WildcardRoute.match`: skip wildcards
named `!`, append empty-named values to the positional list, insert
named values into the keyword mapping (overwriting duplicates).  `none`
models an exception escaping from `Wildcard.value`. -/
def extractGo : List (Wildcard × Str) → List Val → KV → Option (List Val × KV)
  | [], args, kw => some (args, kw)
  | (w, cap) :: rest, args, kw =>
      if w.name = ['!'] then extractGo rest args kw
      else
        match wvalue w.ty cap with
        | none => none
        | some v =>
            if w.name = [] then extractGo rest (args ++ [v]) kw
            else extractGo rest args (kvInsert kw w.name v)

/-- `WildcardRoute.match(path)`: `.ok none` is "no match", `.ok (some r)`
a successful resolution, `.error` an exception escaping the extraction
loop (shown below to be impossible). -/
def wcMatch {H : Type} (r : WcRoute H) (path : Str) :
    Except Unit (Option (H × List Val × KV)) :=
  match matchToks r.items path with
  | none => .ok none
  | some caps =>
      match extractGo ((wildsOf r.items).zip caps) [] [] with
      | none => .error ()
      | some (args, kw) => .ok (some (r.cb, args, kw))

/-! ## Regex routes: `RegexRoute`

The pattern is handed to `re.compile` unchanged; the compiled object is
modelled abstractly by its number of capturing groups (`match.re.groups`),
its named-group table (`match.re.groupindex`), and its search function,
which on success yields the value of each group (`match.group(i)`,
`none` for a group that did not participate in the match). -/

/-- An abstract compiled regex with its callback (`RegexRoute`). -/
structure RxRoute (H : Type) : Type where
  /-- `match.re.groups`: number of capturing groups. -/
  groups : Nat
  /-- `match.re.groupindex`: name → group index, distinct names. -/
  names : List (Str × Nat)
  /-- `re.search` against a subject: group valuation on success. -/
  search : Str → Option (Nat → Option Str)
  cb : H

/-- `match.group(i)` as a routing value: the matched substring, or
Python `None` when the group did not participate. -/
def optVal (g : Option Str) : Val :=
  match g with
  | some s => .s s
  | none => .null

/-- The unnamed group indices `[i for i in range(1, groups+1) if i not in
kwargs_indexes]` of `RegexRoute.match`. -/
def rxArgIdx {H : Type} (r : RxRoute H) : List Nat :=
  (List.range' 1 r.groups).filter (fun i => !(r.names.map (·.2)).contains i)

/-- `RegexRoute.match(path)`: on a search hit, positional results are the
unnamed groups in ascending index order, named results map each named
group to its value. -/
def rxMatch {H : Type} (r : RxRoute H) (path : Str) :
    Option (H × List Val × KV) :=
  match r.search path with
  | none => none
  | some g =>
      let args := (rxArgIdx r).map (fun i => optVal (g i))
      let kwargs := r.names.foldl (fun kw p => kvInsert kw p.1 (optVal (g p.2))) []
      some (r.cb, args, kwargs)

/-! ## Pattern classification: `Router._normalize_pattern`

`RegexRoute.like` searches for `\(.*\)` (a `(` with a `)` after it and no
newline in between, since `.` does not match newline);
`WildcardRoute.like` searches for `<[^<>/]*>`. -/

/-- A `)` occurs before any newline. -/
def closeScan : Str → Bool
  | [] => false
  | c :: r => if c = ')' then true else if c = '\n' then false else closeScan r

/-- `RegexRoute.like`: the pattern contains a substring matching `\(.*\)`. -/
def groupScan : Str → Bool
  | [] => false
  | c :: r => (c = '(' && closeScan r) || groupScan r

/-- A `>` occurs with only `[^<>/]` characters before it. -/
def wcClose : Str → Bool
  | [] => false
  | c :: r => if c = '>' then true else if isPlain c then wcClose r else false

/-- `WildcardRoute.like`: the pattern contains a substring matching
`<[^<>/]*>`. -/
def wcScan : Str → Bool
  | [] => false
  | c :: r => (c = '<' && wcClose r) || wcScan r

/-- The three route kinds. -/
inductive PatKind : Type where
  | lit : PatKind
  | wc : PatKind
  | rx : PatKind
deriving DecidableEq, Repr

/-- `Router._normalize_pattern`: an explicit `regex:` / `wildcard:` /
`literal:` declaration wins and is stripped; otherwise classify by the
`RegexRoute.like` then `WildcardRoute.like` heuristics, literal last. -/
def normalizePattern (p : Str) : PatKind × Str :=
  if ("regex:".data).isPrefixOf p then (.rx, p.drop 6)
  else if ("wildcard:".data).isPrefixOf p then (.wc, p.drop 9)
  else if ("literal:".data).isPrefixOf p then (.lit, p.drop 8)
  else if groupScan p then (.rx, p)
  else if wcScan p then (.wc, p)
  else (.lit, p)

/-! ## The router: `Router`

The three tiers are `defaultdict`s keyed by method: a literal exact-match
dict, and lists of compiled wildcard / regex routes.  `defaultdict`
lookup in `add` inserts the default value for a missing key *before* the
route is compiled, so a failed `add` still creates the method key. -/

/-- Association-list lookup (Python `d[k]` / `k in d`). -/
def dictFind? {α : Type} (d : List (Str × α)) (k : Str) : Option α :=
  (d.find? (fun p => p.1 = k)).map (·.2)

/-- Association-list update: overwrite in place or append (Python
`d[k] = v`, and `defaultdict.__getitem__`'s insertion of a default). -/
def dictSet {α : Type} (d : List (Str × α)) (k : Str) (v : α) : List (Str × α) :=
  match d with
  | [] => [(k, v)]
  | (k2, w) :: rest =>
      if k2 = k then (k2, v) :: rest else (k2, w) :: dictSet rest k v

/-- The router's state: per-method literal index, wildcard sequence and
regex sequence. -/
structure Router (H : Type) : Type where
  lit : List (Str × List (Str × H))
  wc : List (Str × List (WcRoute H))
  rx : List (Str × List (RxRoute H))

/-- `Router.__init__`. -/
def Router.empty {H : Type} : Router H := ⟨[], [], []⟩

/-- Errors out of `Router.add`: a wildcard `RouteError`, or a regex
compilation error from `re.compile`. -/
inductive AddError : Type where
  | route : RouteError → AddError
  | rxCompile : AddError
deriving DecidableEq, Repr

/-- `Router.add(method, pattern, callback)`: classify, then store.  The
returned router is the state after the call even when the call fails:
evaluating `self._wildcard[method]` (resp. `self._regex[method]`)
creates the method key with an empty list before the route constructor
runs, so a failing constructor leaves that key behind.  `rxc` models
`re.compile` for the regex tier (it may fail on a malformed pattern). -/
def routerAdd {H : Type} (rxc : Str → Except Unit (RxRoute H))
    (rt : Router H) (method pattern : Str) (cb : H) : Router H × Option AddError :=
  let (kind, pat) := normalizePattern pattern
  match kind with
  | .lit =>
      let inner := (dictFind? rt.lit method).getD []
      ({ rt with lit := dictSet rt.lit method (dictSet inner pat cb) }, none)
  | .wc =>
      let cur := (dictFind? rt.wc method).getD []
      match wcCompile pat cb with
      | .ok r => ({ rt with wc := dictSet rt.wc method (cur ++ [r]) }, none)
      | .error e => ({ rt with wc := dictSet rt.wc method cur }, some (.route e))
  | .rx =>
      let cur := (dictFind? rt.rx method).getD []
      match rxc pat with
      | .ok r => ({ rt with rx := dictSet rt.rx method (cur ++ [r]) }, none)
      | .error _ => ({ rt with rx := dictSet rt.rx method cur }, some .rxCompile)

/-- `Router.contains_method(method)`: membership in the chained keys of
the three tier dicts. -/
def containsMethod {H : Type} (rt : Router H) (method : Str) : Bool :=
  (rt.lit.map (·.1) ++ rt.wc.map (·.1) ++ rt.rx.map (·.1)).contains method

/-- Literal-tier lookup: `method in self._literal and path in
self._literal[method]`, with the stored callback. -/
def lookupLit {H : Type} (rt : Router H) (method path : Str) : Option H :=
  (dictFind? rt.lit method).bind (fun d => dictFind? d path)

/-- Reverse scan of the wildcard tier (`for route in reversed(...)`),
propagating an exception out of `route.match`. -/
def scanWc {H : Type} : List (WcRoute H) → Str →
    Except Unit (Option (H × List Val × KV))
  | [], _ => .ok none
  | r :: rs, path =>
      match wcMatch r path with
      | .error e => .error e
      | .ok (some x) => .ok (some x)
      | .ok none => scanWc rs path

/-- Reverse scan of the regex tier. -/
def scanRx {H : Type} (l : List (RxRoute H)) (path : Str) :
    Option (H × List Val × KV) :=
  l.findSome? (fun r => rxMatch r path)

/-- `Router._resolve_non_literal_route`: the wildcard sequence in reverse
registration order, then the regex sequence in reverse registration
order; `None` when nothing matches. -/
def resolveNonLiteral {H : Type} (rt : Router H) (method path : Str) :
    Except Unit (Option (H × List Val × KV)) :=
  let wl := (dictFind? rt.wc method).getD []
  match scanWc wl.reverse path with
  | .error e => .error e
  | .ok (some x) => .ok (some x)
  | .ok none =>
      let rl := (dictFind? rt.rx method).getD []
      .ok (scanRx rl.reverse path)

/-- `Router.resolve(method, path)`: exact literal hit first, with empty
positional and named results; otherwise the non-literal tiers. -/
def resolve {H : Type} (rt : Router H) (method path : Str) :
    Except Unit (Option (H × List Val × KV)) :=
  match lookupLit rt method path with
  | some cb => .ok (some (cb, [], []))
  | none => resolveNonLiteral rt method path

/-- A sequence of `add` calls from a given state, keeping the mutated
state of failed calls (`Router.add` mutates before it raises). -/
def foldAdds {H : Type} (rxc : Str → Except Unit (RxRoute H))
    (rt : Router H) (calls : List (Str × Str × H)) : Router H :=
  calls.foldl (fun acc c => (routerAdd rxc acc c.1 c.2.1 c.2.2).1) rt

end Ice

namespace Ice

/-! ## Fragment correctness: the candidate lists realize the fragment
languages -/

theorem not_isEmpty_iff (l : Str) : (!l.isEmpty) = true ↔ l ≠ [] := by
  cases l <;> simp

theorem mem_greedyPrefixes (run x : Str) :
    x ∈ greedyPrefixes run ↔ x ≠ [] ∧ x <+: run := by
  unfold greedyPrefixes
  simp only [List.mem_map, List.mem_range]
  constructor
  · rintro ⟨k, hk, rfl⟩
    have hlen : (run.take (run.length - k)).length = run.length - k := by
      rw [List.length_take]; omega
    refine ⟨?_, List.take_prefix _ _⟩
    intro hnil
    rw [hnil] at hlen
    simp only [List.length_nil] at hlen
    omega
  · rintro ⟨hne, hpre⟩
    have hx : x = run.take x.length := List.prefix_iff_eq_take.mp hpre
    have hlen : x.length ≤ run.length := hpre.length_le
    have hxpos : 0 < x.length := List.length_pos.mpr hne
    refine ⟨run.length - x.length, by omega, ?_⟩
    have h2 : run.length - (run.length - x.length) = x.length := by omega
    rw [h2]
    exact hx.symm

theorem prefix_takeWhile_iff (p : Char → Bool) (x : Str) : ∀ l : Str,
    x <+: l.takeWhile p ↔ x <+: l ∧ x.all p = true := by
  induction x with
  | nil => intro l; simp
  | cons a x' ih =>
      intro l
      cases l with
      | nil => simp [List.takeWhile]
      | cons b l' =>
          by_cases hb : p b
          · rw [List.takeWhile_cons, if_pos hb, List.cons_prefix_cons,
              List.cons_prefix_cons, ih l']
            constructor
            · rintro ⟨rfl, h1, h2⟩
              exact ⟨⟨rfl, h1⟩, by simp [List.all_cons, hb, h2]⟩
            · rintro ⟨⟨rfl, h1⟩, h2⟩
              simp only [List.all_cons, Bool.and_eq_true] at h2
              exact ⟨rfl, h1, h2.2⟩
          · rw [List.takeWhile_cons, if_neg hb]
            constructor
            · intro h
              exact absurd (List.prefix_nil.mp h) (by simp)
            · rintro ⟨hpre, hall⟩
              rw [List.cons_prefix_cons] at hpre
              obtain ⟨rfl, _⟩ := hpre
              simp only [List.all_cons, Bool.and_eq_true] at hall
              exact absurd hall.1 hb

theorem posCands_iff (s cap : Str) :
    cap ∈ posCands s ↔ cap <+: s ∧ posNum cap = true := by
  cases s with
  | nil =>
      simp only [posCands, List.not_mem_nil, false_iff, not_and]
      intro hp
      have h0 : cap = [] := List.prefix_nil.mp hp
      simp [h0, posNum]
  | cons c r =>
      by_cases hc : isPosDig c
      · simp only [posCands, if_pos hc, mem_greedyPrefixes]
        constructor
        · rintro ⟨hne, hpre⟩
          cases cap with
          | nil => exact absurd rfl hne
          | cons a cap' =>
              rw [List.cons_prefix_cons] at hpre
              obtain ⟨rfl, hpre'⟩ := hpre
              rw [prefix_takeWhile_iff] at hpre'
              exact ⟨List.cons_prefix_cons.mpr ⟨rfl, hpre'.1⟩,
                by simp [posNum, hc, hpre'.2]⟩
        · rintro ⟨hpre, hnum⟩
          cases cap with
          | nil => simp [posNum] at hnum
          | cons a cap' =>
              rw [List.cons_prefix_cons] at hpre
              obtain ⟨rfl, hpre'⟩ := hpre
              simp only [posNum, Bool.and_eq_true] at hnum
              refine ⟨by simp, List.cons_prefix_cons.mpr ⟨rfl, ?_⟩⟩
              rw [prefix_takeWhile_iff]
              exact ⟨hpre', hnum.2⟩
      · simp only [posCands, if_neg hc, List.not_mem_nil, false_iff, not_and]
        intro hpre
        cases cap with
        | nil => simp [posNum]
        | cons a cap' =>
            rw [List.cons_prefix_cons] at hpre
            obtain ⟨rfl, _⟩ := hpre
            simp [posNum, hc]

theorem zeroCand_iff (s cap : Str) :
    cap ∈ zeroCand s ↔ cap = ['0'] ∧ cap <+: s := by
  cases s with
  | nil =>
      constructor
      · intro h; simp [zeroCand] at h
      · rintro ⟨rfl, hpre⟩
        have h0 := List.prefix_nil.mp hpre
        simp at h0
  | cons c r =>
      by_cases hc : c = '0'
      · subst hc
        have hz : zeroCand ('0' :: r) = [['0']] := by simp [zeroCand]
        rw [hz, List.mem_singleton]
        constructor
        · rintro rfl; exact ⟨rfl, by simp [List.cons_prefix_cons]⟩
        · rintro ⟨rfl, _⟩; rfl
      · have hz : zeroCand (c :: r) = [] := by simp [zeroCand, hc]
        rw [hz]
        simp only [List.not_mem_nil, false_iff, not_and]
        rintro rfl hpre
        rw [List.cons_prefix_cons] at hpre
        exact hc hpre.1.symm

theorem negCands_iff (s cap : Str) :
    cap ∈ negCands s ↔ cap <+: s ∧ fragLang.negLang cap = true := by
  cases s with
  | nil =>
      simp only [negCands, List.not_mem_nil, false_iff, not_and]
      intro hp
      have h0 : cap = [] := List.prefix_nil.mp hp
      simp [h0, fragLang.negLang]
  | cons c r =>
      by_cases hc : c = '-'
      · subst hc
        have hz : negCands ('-' :: r) = (posCands r).map (fun cc => '-' :: cc) := by
          simp [negCands]
        rw [hz]
        constructor
        · intro hmem
          obtain ⟨cap', hmem', rfl⟩ := List.mem_map.mp hmem
          rw [posCands_iff] at hmem'
          exact ⟨List.cons_prefix_cons.mpr ⟨rfl, hmem'.1⟩,
            by simp [fragLang.negLang, hmem'.2]⟩
        · rintro ⟨hpre, hneg⟩
          cases cap with
          | nil => simp [fragLang.negLang] at hneg
          | cons a cap' =>
              rw [List.cons_prefix_cons] at hpre
              obtain ⟨rfl, hpre'⟩ := hpre
              simp only [fragLang.negLang, Bool.and_eq_true] at hneg
              exact List.mem_map.mpr
                ⟨cap', (posCands_iff _ _).mpr ⟨hpre', hneg.2⟩, rfl⟩
      · have hz : negCands (c :: r) = [] := by simp [negCands, hc]
        rw [hz]
        simp only [List.not_mem_nil, false_iff, not_and]
        intro hpre hneg
        cases cap with
        | nil => simp [fragLang.negLang] at hneg
        | cons a cap' =>
            rw [List.cons_prefix_cons] at hpre
            obtain ⟨rfl, _⟩ := hpre
            simp only [fragLang.negLang, Bool.and_eq_true,
              decide_eq_true_eq] at hneg
            exact hc hneg.1

/-- The operational candidate list realizes exactly the declarative
fragment language, restricted to prefixes of the subject. -/
theorem candidates_iff (t : WType) (s cap : Str) :
    cap ∈ candidates t s ↔ cap <+: s ∧ fragLang t cap = true := by
  cases t with
  | str =>
      simp only [candidates, fragLang, mem_greedyPrefixes,
        prefix_takeWhile_iff, Bool.and_eq_true, not_isEmpty_iff]
      tauto
  | path =>
      simp only [candidates, fragLang, mem_greedyPrefixes,
        prefix_takeWhile_iff, Bool.and_eq_true, not_isEmpty_iff]
      tauto
  | int =>
      simp only [candidates, List.mem_append, zeroCand_iff, posCands_iff,
        fragLang, Bool.or_eq_true, decide_eq_true_eq]
      tauto
  | pint =>
      simp only [candidates, posCands_iff, fragLang]
  | nint =>
      simp only [candidates, List.mem_append, zeroCand_iff, posCands_iff,
        negCands_iff, fragLang, Bool.or_eq_true, decide_eq_true_eq]
      tauto

/-! ## The wildcard matcher cannot raise: every capture lies in its
fragment language, and `Wildcard.value` is total on those -/

theorem findSome?_eq_some_ex {α β : Type} (f : α → Option β) (l : List α) (b : β)
    (h : l.findSome? f = some b) : ∃ a ∈ l, f a = some b := by
  induction l with
  | nil => simp [List.findSome?] at h
  | cons a l ih =>
      cases hfa : f a with
      | some c =>
          simp only [List.findSome?, hfa] at h
          exact ⟨a, by simp, by rw [hfa, h]⟩
      | none =>
          simp only [List.findSome?, hfa] at h
          obtain ⟨x, hx, hfx⟩ := ih h
          exact ⟨x, by simp [hx], hfx⟩

theorem matchToks_nil_inv (s : Str) (caps : List Str)
    (h : matchToks [] s = some caps) : caps = [] := by
  simp only [matchToks] at h
  split at h
  · exact (Option.some_inj.mp h).symm
  · exact absurd h (by simp)

/-- Every capture produced by the anchored matcher lies in the fragment
language of its wildcard. -/
theorem matchToks_caps : ∀ (items : List CompTok) (s : Str) (caps : List Str),
    matchToks items s = some caps →
    caps.length = (wildsOf items).length ∧
    ∀ p ∈ (wildsOf items).zip caps, fragLang p.1.ty p.2 = true := by
  intro items
  induction items with
  | nil =>
      intro s caps h
      have h0 := matchToks_nil_inv s caps h
      subst h0
      simp [wildsOf]
  | cons t ts ih =>
      intro s caps h
      cases t with
      | lit l =>
          by_cases hp : l.isPrefixOf s
          · simp only [matchToks, hp, if_true] at h
            simpa [wildsOf] using ih _ _ h
          · simp [matchToks, hp] at h
      | wild w =>
          simp only [matchToks] at h
          obtain ⟨cap, hmem, hcap⟩ := findSome?_eq_some_ex _ _ _ h
          cases hmt : matchToks ts (s.drop cap.length) with
          | none => rw [hmt] at hcap; simp at hcap
          | some caps' =>
              rw [hmt] at hcap
              simp only [Option.map_some'] at hcap
              obtain ⟨hlen, hall⟩ := ih _ _ hmt
              have hfrag : fragLang w.ty cap = true :=
                ((candidates_iff w.ty s cap).mp hmem).2
              have hcap2 : cap :: caps' = caps := Option.some_inj.mp hcap
              rw [← hcap2]
              constructor
              · simp [wildsOf, hlen]
              · intro p hzip
                simp only [wildsOf, List.filterMap_cons] at hzip
                rw [List.zip_cons_cons] at hzip
                rcases List.mem_cons.mp hzip with h1 | h1
                · subst h1; exact hfrag
                · exact hall p h1

theorem isPosDig_isDig (c : Char) (h : isPosDig c = true) : isDig c = true := by
  simp only [isPosDig, isDig, Bool.and_eq_true, decide_eq_true_eq] at *
  have h0 : '0'.toNat = 48 := rfl
  have h1 : '1'.toNat = 49 := rfl
  have h9 : '9'.toNat = 57 := rfl
  omega

theorem isPosDig_ne_minus (c : Char) (h : isPosDig c = true) : c ≠ '-' := by
  rintro rfl; simp [isPosDig] at h

theorem isPosDig_ne_plus (c : Char) (h : isPosDig c = true) : c ≠ '+' := by
  rintro rfl; simp [isPosDig] at h

/-- `int()` succeeds on every string of the `[1-9][0-9]*` language. -/
theorem parseInt_posNum (s : Str) (h : posNum s = true) :
    parseInt s = some (natOfDigits s : Int) := by
  cases s with
  | nil => simp [posNum] at h
  | cons c r =>
      simp only [posNum, Bool.and_eq_true] at h
      simp only [parseInt, if_neg (isPosDig_ne_minus c h.1),
        if_neg (isPosDig_ne_plus c h.1)]
      rw [if_pos]
      simp [List.all_cons, isPosDig_isDig c h.1, h.2]

/-- `Wildcard.value` succeeds on every capture in the wildcard type's
fragment language. -/
theorem wvalue_of_fragLang (t : WType) (cap : Str) (h : fragLang t cap = true) :
    ∃ v, wvalue t cap = some v := by
  cases t with
  | str => exact ⟨.s cap, rfl⟩
  | path => exact ⟨.s cap, rfl⟩
  | int =>
      simp only [fragLang, Bool.or_eq_true, decide_eq_true_eq] at h
      rcases h with h | h
      · subst h; exact ⟨.i 0, rfl⟩
      · exact ⟨.i (natOfDigits cap : Int), by simp [wvalue, parseInt_posNum cap h]⟩
  | pint =>
      simp only [fragLang] at h
      exact ⟨.i (natOfDigits cap : Int), by simp [wvalue, parseInt_posNum cap h]⟩
  | nint =>
      simp only [fragLang, Bool.or_eq_true, decide_eq_true_eq] at h
      rcases h with (h | h) | h
      · subst h; exact ⟨.i 0, rfl⟩
      · cases cap with
        | nil => simp [fragLang.negLang] at h
        | cons c r =>
            simp only [fragLang.negLang, Bool.and_eq_true,
              decide_eq_true_eq] at h
            obtain ⟨rfl, hr⟩ := h
            cases r with
            | nil => simp [posNum] at hr
            | cons d t =>
                simp only [posNum, Bool.and_eq_true] at hr
                refine ⟨.i (-(natOfDigits (d :: t) : Int)), ?_⟩
                have hcond : (d :: t) ≠ [] ∧ (d :: t).all isDig = true := by
                  refine ⟨by simp, ?_⟩
                  simp only [List.all_cons, Bool.and_eq_true]
                  exact ⟨isPosDig_isDig d hr.1, hr.2⟩
                simp [wvalue, parseInt, hcond]
      · exact ⟨.i (natOfDigits cap : Int), by simp [wvalue, parseInt_posNum cap h]⟩

/-- The extraction loop succeeds whenever every conversion succeeds. -/
theorem extractGo_isSome : ∀ (pairs : List (Wildcard × Str)) (args : List Val) (kw : KV),
    (∀ p ∈ pairs, ∃ v, wvalue p.1.ty p.2 = some v) →
    ∃ r, extractGo pairs args kw = some r := by
  intro pairs
  induction pairs with
  | nil => exact fun args kw _ => ⟨(args, kw), rfl⟩
  | cons p rest ih =>
      intro args kw hall
      obtain ⟨w, cap⟩ := p
      by_cases hbang : w.name = ['!']
      · simp only [extractGo, hbang, if_true]
        exact ih args kw (fun q hq => hall q (by simp [hq]))
      · obtain ⟨v, hv⟩ := hall (w, cap) (by simp)
        simp only [extractGo, hbang, if_false, hv]
        by_cases hempty : w.name = []
        · simp only [hempty, if_true]
          exact ih _ _ (fun q hq => hall q (by simp [hq]))
        · simp only [hempty, if_false]
          exact ih _ _ (fun q hq => hall q (by simp [hq]))

/-- `WildcardRoute.match` never raises: the conversion of every capture
succeeds because captures always lie in their fragment languages. -/
theorem wcMatch_ne_error {H : Type} (r : WcRoute H) (path : Str) :
    wcMatch r path ≠ .error () := by
  unfold wcMatch
  cases hmt : matchToks r.items path with
  | none => simp
  | some caps =>
      obtain ⟨hlen, hall⟩ := matchToks_caps r.items path caps hmt
      obtain ⟨res, hres⟩ := extractGo_isSome ((wildsOf r.items).zip caps) [] []
        (fun p hp => wvalue_of_fragLang p.1.ty p.2 (hall p hp))
      obtain ⟨args, kw⟩ := res
      simp [hres]

theorem scanWc_ne_error {H : Type} (l : List (WcRoute H)) (path : Str) :
    scanWc l path ≠ .error () := by
  induction l with
  | nil => simp [scanWc]
  | cons r rs ih =>
      simp only [scanWc]
      cases hm : wcMatch r path with
      | error e => exact absurd (by rw [hm]) (wcMatch_ne_error r path)
      | ok x =>
          cases x with
          | none => simpa using ih
          | some v => simp

theorem resolveNonLiteral_ne_error {H : Type} (rt : Router H) (m p : Str) :
    resolveNonLiteral rt m p ≠ .error () := by
  unfold resolveNonLiteral
  dsimp only
  cases hs : scanWc ((dictFind? rt.wc m).getD []).reverse p with
  | error e => cases e; exact absurd hs (scanWc_ne_error _ _)
  | ok x => cases x <;> simp

/-- `Router.resolve` never raises. -/
theorem resolve_ne_error {H : Type} (rt : Router H) (m p : Str) :
    resolve rt m p ≠ .error () := by
  unfold resolve
  cases lookupLit rt m p with
  | some cb => simp
  | none => exact resolveNonLiteral_ne_error rt m p

/-! ## Scan-order lemmas for the non-literal tiers -/

theorem scanWc_append {H : Type} (l1 l2 : List (WcRoute H)) (p : Str) :
    scanWc (l1 ++ l2) p =
      match scanWc l1 p with
      | .ok none => scanWc l2 p
      | x => x := by
  induction l1 with
  | nil => simp [scanWc]
  | cons r rs ih =>
      simp only [List.cons_append, scanWc]
      cases wcMatch r p with
      | error e => rfl
      | ok x =>
          cases x with
          | some v => rfl
          | none => exact ih

theorem scanWc_all_none {H : Type} (l : List (WcRoute H)) (p : Str)
    (h : ∀ r ∈ l, wcMatch r p = .ok none) : scanWc l p = .ok none := by
  induction l with
  | nil => rfl
  | cons r rs ih =>
      simp only [scanWc, h r (by simp)]
      exact ih (fun x hx => h x (by simp [hx]))

theorem findSome?_append {α β : Type} (f : α → Option β) (l1 l2 : List α) :
    (l1 ++ l2).findSome? f = (l1.findSome? f).or (l2.findSome? f) := by
  induction l1 with
  | nil => simp [List.findSome?]
  | cons a t ih =>
      cases hfa : f a <;> simp [List.findSome?, hfa, ih]

theorem findSome?_all_none {α β : Type} (f : α → Option β) (l : List α)
    (h : ∀ a ∈ l, f a = none) : l.findSome? f = none := by
  induction l with
  | nil => rfl
  | cons a t ih =>
      simp only [List.findSome?, h a (by simp)]
      exact ih (fun x hx => h x (by simp [hx]))

/-! ## Extraction characterization (the capture-walking loop) -/

/-- The positional results, as the spec words them: the converted values
of the empty-named wildcards, in left-to-right order. -/
def specPositional (pairs : List (Wildcard × Str)) : List Val :=
  pairs.filterMap (fun p => if p.1.name = [] then wvalue p.1.ty p.2 else none)

/-- The named result for `n`, as the spec words it: the converted value
of the last wildcard named `n` (later duplicates overwrite earlier). -/
def specNamedLast (pairs : List (Wildcard × Str)) (n : Str) : Option Val :=
  (pairs.filterMap
    (fun p => if p.1.name = n then wvalue p.1.ty p.2 else none)).getLast?

theorem filterMapHeadNone {α β : Type} (f : α → Option β) (a : α) (l : List α)
    (h : f a = none) : List.filterMap f (a :: l) = List.filterMap f l := by
  rw [List.filterMap_cons, h]

theorem filterMapHeadSome {α β : Type} (f : α → Option β) (a : α) (l : List α)
    (b : β) (h : f a = some b) :
    List.filterMap f (a :: l) = b :: List.filterMap f l := by
  rw [List.filterMap_cons, h]

theorem getLast?_cons_or {α : Type} (a : α) (l : List α) :
    (a :: l).getLast? = l.getLast?.or (some a) := by
  induction l generalizing a with
  | nil => simp
  | cons b t ih =>
      rw [List.getLast?_cons_cons, ih b]
      cases h : t.getLast? <;> simp [Option.or]

theorem extractGo_args : ∀ (pairs : List (Wildcard × Str)) (args : List Val)
    (kw : KV) (res : List Val × KV),
    extractGo pairs args kw = some res → res.1 = args ++ specPositional pairs := by
  intro pairs
  induction pairs with
  | nil =>
      intro args kw res h
      simp only [extractGo, Option.some_inj] at h
      simp [← h, specPositional]
  | cons p rest ih =>
      intro args kw res h
      obtain ⟨w, cap⟩ := p
      by_cases hbang : w.name = ['!']
      · simp only [extractGo, hbang, if_true] at h
        have hne : w.name ≠ [] := by simp [hbang]
        simp only [specPositional, List.filterMap_cons, hbang, hne, if_neg hne]
        exact ih args kw res h
      · simp only [extractGo, hbang, if_false] at h
        cases hv : wvalue w.ty cap with
        | none => rw [hv] at h; simp at h
        | some v =>
            rw [hv] at h
            by_cases hempty : w.name = []
            · simp only [hempty, if_true] at h
              have h2 := ih _ _ _ h
              simp only [specPositional, List.filterMap_cons, hempty, if_pos rfl,
                hv] at *
              rw [h2, List.append_assoc]
              rfl
            · simp only [hempty, if_false] at h
              have h2 := ih _ _ _ h
              simp only [specPositional, List.filterMap_cons, if_neg hempty]
              exact h2

theorem extractGo_kw : ∀ (pairs : List (Wildcard × Str)) (args : List Val)
    (kw : KV) (res : List Val × KV),
    extractGo pairs args kw = some res → ∀ n : Str, n ≠ [] → n ≠ ['!'] →
    kvLookup res.2 n = (specNamedLast pairs n).or (kvLookup kw n) := by
  intro pairs
  induction pairs with
  | nil =>
      intro args kw res h n _ _
      simp only [extractGo, Option.some_inj] at h
      simp [← h, specNamedLast, Option.or]
  | cons p rest ih =>
      intro args kw res h n hn1 hn2
      obtain ⟨w, cap⟩ := p
      by_cases hbang : w.name = ['!']
      · simp only [extractGo, hbang, if_true] at h
        have hne : ¬ (w.name = n) := by rw [hbang]; exact fun hc => hn2 hc.symm
        have hf : (fun p : Wildcard × Str =>
            if p.1.name = n then wvalue p.1.ty p.2 else none) (w, cap) = none := by
          simp [hne]
        rw [specNamedLast, filterMapHeadNone
          (fun p : Wildcard × Str => if p.1.name = n then wvalue p.1.ty p.2 else none)
          (w, cap) rest hf]
        exact ih args kw res h n hn1 hn2
      · simp only [extractGo, hbang, if_false] at h
        cases hv : wvalue w.ty cap with
        | none => rw [hv] at h; simp at h
        | some v =>
            rw [hv] at h
            by_cases hempty : w.name = []
            · simp only [hempty, if_true] at h
              have hne : ¬ (w.name = n) := by
                rw [hempty]; exact fun hc => hn1 hc.symm
              have hf : (fun p : Wildcard × Str =>
                  if p.1.name = n then wvalue p.1.ty p.2 else none) (w, cap)
                  = none := by simp [hne]
              rw [specNamedLast, filterMapHeadNone
                (fun p : Wildcard × Str => if p.1.name = n then wvalue p.1.ty p.2 else none)
                (w, cap) rest hf]
              exact ih _ _ _ h n hn1 hn2
            · simp only [hempty, if_false] at h
              have h2 := ih _ _ _ h n hn1 hn2
              by_cases hwn : w.name = n
              · subst hwn
                have hf : (fun p : Wildcard × Str =>
                    if p.1.name = w.name then wvalue p.1.ty p.2 else none)
                    (w, cap) = some v := by simp [hv]
                rw [specNamedLast, filterMapHeadSome
                  (fun p : Wildcard × Str => if p.1.name = w.name then wvalue p.1.ty p.2 else none)
                  (w, cap) rest v hf]
                rw [getLast?_cons_or, h2, kvLookup_kvInsert]
                simp only [if_pos rfl]
                cases hlast : (rest.filterMap
                    (fun p => if p.1.name = w.name then wvalue p.1.ty p.2
                              else none)).getLast? with
                | none => simp [specNamedLast, hlast, Option.or]
                | some x => simp [specNamedLast, hlast, Option.or]
              · have hf : (fun p : Wildcard × Str =>
                    if p.1.name = n then wvalue p.1.ty p.2 else none) (w, cap)
                    = none := by simp [hwn]
                rw [specNamedLast, filterMapHeadNone
                  (fun p : Wildcard × Str => if p.1.name = n then wvalue p.1.ty p.2 else none)
                  (w, cap) rest hf]
                rw [h2, kvLookup_kvInsert]
                have hnw : ¬ (n = w.name) := fun hc => hwn hc.symm
                simp only [if_neg hnw]
                rfl

/-! ## Classification scanners are correct -/

theorem closeScan_iff (l : Str) :
    closeScan l = true ↔
      ∃ m b : Str, l = m ++ ')' :: b ∧ m.all (fun c => c ≠ '\n') = true := by
  induction l with
  | nil =>
      constructor
      · intro h; simp [closeScan] at h
      · rintro ⟨m, b, hmb, -⟩
        have hlen := congrArg List.length hmb
        simp only [List.length_nil, List.length_append, List.length_cons] at hlen
        omega
  | cons c r ih =>
      by_cases hc : c = ')'
      · subst hc
        constructor
        · intro h2
          exact ⟨[], r, rfl, by simp⟩
        · intro h2
          simp [closeScan]
      · by_cases hn : c = '\n'
        · subst hn
          have hz : closeScan ('\n' :: r) = false := by simp [closeScan, hc]
          rw [hz]
          constructor
          · intro h; simp at h
          · rintro ⟨m, b, hmb, hall⟩
            exfalso
            cases m with
            | nil =>
                injection hmb with h1 h2
                exact hc h1
            | cons a m' =>
                rw [List.cons_append] at hmb
                injection hmb with h1 h2
                subst h1
                simp [List.all_cons] at hall
        · have hz : closeScan (c :: r) = closeScan r := by simp [closeScan, hc, hn]
          rw [hz, ih]
          constructor
          · rintro ⟨m, b, rfl, hall⟩
            refine ⟨c :: m, b, rfl, ?_⟩
            rw [List.all_cons, Bool.and_eq_true]
            exact ⟨by simp [hn], hall⟩
          · rintro ⟨m, b, hmb, hall⟩
            cases m with
            | nil =>
                injection hmb with h1 h2
                exact absurd h1 hc
            | cons a m' =>
                rw [List.cons_append] at hmb
                injection hmb with h1 h2
                subst h1
                rw [List.all_cons, Bool.and_eq_true] at hall
                exact ⟨m', b, h2, hall.2⟩

theorem groupScan_iff (l : Str) :
    groupScan l = true ↔
      ∃ a m b : Str, l = a ++ '(' :: (m ++ ')' :: b) ∧
        m.all (fun c => c ≠ '\n') = true := by
  induction l with
  | nil =>
      constructor
      · intro h; simp [groupScan] at h
      · rintro ⟨a, m, b, hmb, -⟩
        have hlen := congrArg List.length hmb
        simp only [List.length_nil, List.length_append, List.length_cons] at hlen
        omega
  | cons c r ih =>
      simp only [groupScan, Bool.or_eq_true, Bool.and_eq_true, decide_eq_true_eq]
      constructor
      · rintro (⟨rfl, hclose⟩ | hrest)
        · obtain ⟨m, b, rfl, hall⟩ := (closeScan_iff r).mp hclose
          exact ⟨[], m, b, rfl, hall⟩
        · obtain ⟨a, m, b, rfl, hall⟩ := ih.mp hrest
          exact ⟨c :: a, m, b, rfl, hall⟩
      · rintro ⟨a, m, b, hmb, hall⟩
        cases a with
        | nil =>
            simp only [List.nil_append] at hmb
            injection hmb with h1 h2
            exact Or.inl ⟨h1, (closeScan_iff r).mpr ⟨m, b, h2, hall⟩⟩
        | cons x a' =>
            rw [List.cons_append] at hmb
            injection hmb with h1 h2
            exact Or.inr (ih.mpr ⟨a', m, b, h2, hall⟩)

theorem wcClose_iff (l : Str) :
    wcClose l = true ↔
      ∃ m b : Str, l = m ++ '>' :: b ∧ m.all isPlain = true := by
  induction l with
  | nil =>
      constructor
      · intro h; simp [wcClose] at h
      · rintro ⟨m, b, hmb, -⟩
        have hlen := congrArg List.length hmb
        simp only [List.length_nil, List.length_append, List.length_cons] at hlen
        omega
  | cons c r ih =>
      by_cases hc : c = '>'
      · subst hc
        constructor
        · intro h2
          exact ⟨[], r, rfl, by simp⟩
        · intro h2
          simp [wcClose]
      · by_cases hp : isPlain c
        · have hz : wcClose (c :: r) = wcClose r := by simp [wcClose, hc, hp]
          rw [hz, ih]
          constructor
          · rintro ⟨m, b, rfl, hall⟩
            refine ⟨c :: m, b, rfl, ?_⟩
            rw [List.all_cons, Bool.and_eq_true]
            exact ⟨hp, hall⟩
          · rintro ⟨m, b, hmb, hall⟩
            cases m with
            | nil =>
                injection hmb with h1 h2
                exact absurd h1 hc
            | cons a m' =>
                rw [List.cons_append] at hmb
                injection hmb with h1 h2
                subst h1
                rw [List.all_cons, Bool.and_eq_true] at hall
                exact ⟨m', b, h2, hall.2⟩
        · have hz : wcClose (c :: r) = false := by simp [wcClose, hc, hp]
          rw [hz]
          constructor
          · intro h; simp at h
          · rintro ⟨m, b, hmb, hall⟩
            exfalso
            cases m with
            | nil =>
                injection hmb with h1 h2
                exact hc h1
            | cons a m' =>
                rw [List.cons_append] at hmb
                injection hmb with h1 h2
                subst h1
                rw [List.all_cons, Bool.and_eq_true] at hall
                exact hp hall.1

theorem wcScan_iff (l : Str) :
    wcScan l = true ↔
      ∃ a m b : Str, l = a ++ '<' :: (m ++ '>' :: b) ∧ m.all isPlain = true := by
  induction l with
  | nil =>
      constructor
      · intro h; simp [wcScan] at h
      · rintro ⟨a, m, b, hmb, -⟩
        have hlen := congrArg List.length hmb
        simp only [List.length_nil, List.length_append, List.length_cons] at hlen
        omega
  | cons c r ih =>
      simp only [wcScan, Bool.or_eq_true, Bool.and_eq_true, decide_eq_true_eq]
      constructor
      · rintro (⟨rfl, hclose⟩ | hrest)
        · obtain ⟨m, b, rfl, hall⟩ := (wcClose_iff r).mp hclose
          exact ⟨[], m, b, rfl, hall⟩
        · obtain ⟨a, m, b, rfl, hall⟩ := ih.mp hrest
          exact ⟨c :: a, m, b, rfl, hall⟩
      · rintro ⟨a, m, b, hmb, hall⟩
        cases a with
        | nil =>
            simp only [List.nil_append] at hmb
            injection hmb with h1 h2
            exact Or.inl ⟨h1, (wcClose_iff r).mpr ⟨m, b, h2, hall⟩⟩
        | cons x a' =>
            rw [List.cons_append] at hmb
            injection hmb with h1 h2
            exact Or.inr (ih.mpr ⟨a', m, b, h2, hall⟩)

/-! ## Router method keys -/

theorem mem_map_fst_dictSet {α : Type} (d : List (Str × α)) (k : Str) (v : α)
    (m : Str) : m ∈ (dictSet d k v).map (·.1) ↔ m ∈ d.map (·.1) ∨ m = k := by
  induction d with
  | nil => simp [dictSet]
  | cons p rest ih =>
      obtain ⟨k2, w⟩ := p
      by_cases hk : k2 = k
      · subst hk
        have hz : dictSet ((k2, w) :: rest) k2 v = (k2, v) :: rest := by
          simp [dictSet]
        rw [hz]
        simp only [List.map_cons, List.mem_cons]
        tauto
      · simp only [dictSet, if_neg hk, List.map_cons, List.mem_cons, ih]
        tauto

theorem containsMethod_iff {H : Type} (rt : Router H) (m : Str) :
    containsMethod rt m = true ↔
      m ∈ rt.lit.map (·.1) ∨ m ∈ rt.wc.map (·.1) ∨ m ∈ rt.rx.map (·.1) := by
  unfold containsMethod
  simp only [List.contains, List.elem_iff, List.mem_append]
  tauto

/-- Every `add` call — successful or not — adds exactly its method to the
set of methods the router knows, because the `defaultdict` lookup happens
before the route is compiled. -/
theorem routerAdd_containsMethod {H : Type} (rxc : Str → Except Unit (RxRoute H))
    (rt : Router H) (method pattern : Str) (cb : H) (m : Str) :
    containsMethod (routerAdd rxc rt method pattern cb).1 m = true ↔
      containsMethod rt m = true ∨ m = method := by
  unfold routerAdd
  rcases hnp : normalizePattern pattern with ⟨kind, pat⟩
  cases kind with
  | lit =>
      simp only [containsMethod_iff, mem_map_fst_dictSet]
      tauto
  | wc =>
      cases hcomp : wcCompile (H := H) pat cb with
      | ok r =>
          simp only [hcomp, containsMethod_iff, mem_map_fst_dictSet]
          tauto
      | error e =>
          simp only [hcomp, containsMethod_iff, mem_map_fst_dictSet]
          tauto
  | rx =>
      cases hcomp : rxc pat with
      | ok r =>
          simp only [hcomp, containsMethod_iff, mem_map_fst_dictSet]
          tauto
      | error e =>
          simp only [hcomp, containsMethod_iff, mem_map_fst_dictSet]
          tauto

theorem foldAdds_containsMethod {H : Type} (rxc : Str → Except Unit (RxRoute H)) :
    ∀ (calls : List (Str × Str × H)) (rt : Router H) (m : Str),
    containsMethod (foldAdds rxc rt calls) m = true ↔
      containsMethod rt m = true ∨ ∃ c ∈ calls, c.1 = m := by
  intro calls
  induction calls with
  | nil =>
      intro rt m
      simp only [foldAdds, List.foldl_nil]
      constructor
      · exact fun h => Or.inl h
      · rintro (h | ⟨x, hx, -⟩)
        · exact h
        · exact absurd hx (List.not_mem_nil x)
  | cons c rest ih =>
      intro rt m
      obtain ⟨cm, cp, ccb⟩ := c
      have hstep : foldAdds rxc rt ((cm, cp, ccb) :: rest)
          = foldAdds rxc (routerAdd rxc rt cm cp ccb).1 rest := by
        simp [foldAdds]
      rw [hstep, ih, routerAdd_containsMethod]
      constructor
      · rintro ((h | rfl) | ⟨x, hx, rfl⟩)
        · exact Or.inl h
        · exact Or.inr ⟨(m, cp, ccb), List.mem_cons_self _ _, rfl⟩
        · exact Or.inr ⟨x, List.mem_cons_of_mem _ hx, rfl⟩
      · rintro (h | ⟨x, hx, rfl⟩)
        · exact Or.inl (Or.inl h)
        · rcases List.mem_cons.mp hx with rfl | hx2
          · exact Or.inl (Or.inr rfl)
          · exact Or.inr ⟨x, hx2, rfl⟩

/-! ## Decimal round-trip for the integer wildcard types -/

theorem digVal_lt_10 (c : Char) (h : isDig c = true) : digVal c < 10 := by
  simp only [isDig, Bool.and_eq_true, decide_eq_true_eq] at h
  have h0 : '0'.toNat = 48 := rfl
  have h9 : '9'.toNat = 57 := rfl
  unfold digVal
  omega

theorem digVal_ne_zero (c : Char) (h : isPosDig c = true) : digVal c ≠ 0 := by
  simp only [isPosDig, Bool.and_eq_true, decide_eq_true_eq] at h
  have h0 : '0'.toNat = 48 := rfl
  have h1 : '1'.toNat = 49 := rfl
  unfold digVal
  omega

theorem digChar_digVal (c : Char) (h : isDig c = true) : digChar (digVal c) = c := by
  simp only [isDig, Bool.and_eq_true, decide_eq_true_eq] at h
  have h0 : '0'.toNat = 48 := rfl
  unfold digChar digVal
  have h2 : '0'.toNat + (c.toNat - '0'.toNat) = c.toNat := by omega
  rw [h2]
  exact Char.ofNat_toNat c

theorem foldl_digits_eq (l : Str) : ∀ a : Nat,
    l.foldl (fun acc c => 10 * acc + digVal c) a
      = a * 10 ^ l.length + Nat.ofDigits 10 ((l.map digVal).reverse) := by
  induction l with
  | nil => intro a; simp [Nat.ofDigits_nil]
  | cons c t ih =>
      intro a
      rw [List.foldl_cons, ih (10 * a + digVal c), List.map_cons,
        List.reverse_cons, Nat.ofDigits_append]
      simp only [List.length_cons, List.length_reverse, List.length_map,
        Nat.ofDigits_singleton]
      ring

theorem natOfDigits_eq (l : Str) :
    natOfDigits l = Nat.ofDigits 10 ((l.map digVal).reverse) := by
  unfold natOfDigits
  rw [foldl_digits_eq]
  simp

theorem getLast?_append_singleton {α : Type} (l : List α) (a : α) :
    (l ++ [a]).getLast? = some a := by
  induction l with
  | nil => rfl
  | cons b t ih =>
      rw [List.cons_append, getLast?_cons_or, ih]
      rfl

theorem digits_natOfDigits (s : Str) (h : posNum s = true) :
    Nat.digits 10 (natOfDigits s) = (s.map digVal).reverse := by
  cases s with
  | nil => simp [posNum] at h
  | cons c0 r =>
      simp only [posNum, Bool.and_eq_true] at h
      rw [natOfDigits_eq]
      apply Nat.digits_ofDigits 10 (by norm_num)
      · intro d hd
        rw [List.mem_reverse, List.mem_map] at hd
        obtain ⟨c, hc, rfl⟩ := hd
        rcases List.mem_cons.mp hc with rfl | hc2
        · exact digVal_lt_10 _ (isPosDig_isDig _ h.1)
        · exact digVal_lt_10 _ (List.all_eq_true.mp h.2 _ hc2)
      · intro hne
        have hl : (((c0 :: r).map digVal).reverse)
            = (r.map digVal).reverse ++ [digVal c0] := by
          rw [List.map_cons, List.reverse_cons]
        have hq : (((c0 :: r).map digVal).reverse).getLast? = some (digVal c0) := by
          rw [hl]
          exact getLast?_append_singleton _ _
        rw [List.getLast?_eq_getLast _ hne] at hq
        rw [Option.some_inj.mp hq]
        exact digVal_ne_zero c0 h.1

theorem natOfDigits_ne_zero (s : Str) (h : posNum s = true) :
    natOfDigits s ≠ 0 := by
  intro h0
  have hd := digits_natOfDigits s h
  rw [h0] at hd
  cases s with
  | nil => simp [posNum] at h
  | cons c0 r =>
      have hlen := congrArg List.length hd
      simp at hlen

theorem map_id_of_forall {α : Type} (l : List α) (f : α → α)
    (h : ∀ x ∈ l, f x = x) : l.map f = l := by
  induction l with
  | nil => rfl
  | cons a t ih => simp [h a (by simp), ih (fun x hx => h x (by simp [hx]))]

theorem natCanon_natOfDigits (s : Str) (h : posNum s = true) :
    natCanon (natOfDigits s) = s := by
  unfold natCanon
  rw [if_neg (natOfDigits_ne_zero s h), digits_natOfDigits s h,
    List.map_reverse, List.reverse_reverse, List.map_map]
  apply map_id_of_forall
  intro c hc
  cases s with
  | nil => simp [posNum] at h
  | cons c0 r =>
      simp only [posNum, Bool.and_eq_true] at h
      rcases List.mem_cons.mp hc with rfl | hc2
      · exact digChar_digVal _ (isPosDig_isDig _ h.1)
      · exact digChar_digVal _ (List.all_eq_true.mp h.2 _ hc2)

theorem intCanon_pos (s : Str) (h : posNum s = true) :
    intCanon ((natOfDigits s : Nat) : Int) = s := by
  unfold intCanon
  rw [if_neg (by omega), Int.natAbs_ofNat]
  exact natCanon_natOfDigits s h

theorem intCanon_zero : intCanon 0 = ['0'] := rfl

theorem intCanon_neg (t : Str) (h : posNum t = true) :
    intCanon (-((natOfDigits t : Nat) : Int)) = '-' :: t := by
  have hne := natOfDigits_ne_zero t h
  unfold intCanon
  rw [if_pos (by omega), Int.natAbs_neg, Int.natAbs_ofNat]
  rw [natCanon_natOfDigits t h]

/-! ## Regex-route extraction lemmas -/

theorem pairwise_lt_range' : ∀ (n s : Nat), List.Pairwise (· < ·) (List.range' s n) := by
  intro n
  induction n with
  | zero => intro s; simp
  | succ k ih =>
      intro s
      rw [List.range'_succ]
      refine List.Pairwise.cons ?_ (ih (s + 1))
      intro b hb
      have := (List.mem_range'_1.mp hb).1
      omega

/-- The unnamed-group index list of `RegexRoute.match` is exactly the
indices `1..groups` that are not named, in ascending order. -/
theorem mem_rxArgIdx {H : Type} (r : RxRoute H) (i : Nat) :
    i ∈ rxArgIdx r ↔ 1 ≤ i ∧ i ≤ r.groups ∧ i ∉ r.names.map (·.2) := by
  unfold rxArgIdx
  rw [List.mem_filter, List.mem_range'_1]
  simp only [Bool.not_eq_true', ← Bool.not_eq_true]
  constructor
  · rintro ⟨⟨h1, h2⟩, h3⟩
    refine ⟨h1, by omega, ?_⟩
    intro hmem
    exact h3 (by simpa [List.elem_iff] using List.elem_eq_true_of_mem hmem)
  · rintro ⟨h1, h2, h3⟩
    refine ⟨⟨h1, by omega⟩, ?_⟩
    intro hc
    exact h3 (by simpa [List.elem_iff] using hc)

theorem rxArgIdx_sorted {H : Type} (r : RxRoute H) :
    List.Pairwise (· < ·) (rxArgIdx r) :=
  List.Pairwise.sublist (List.filter_sublist _) (pairwise_lt_range' r.groups 1)

theorem kvLookup_foldl_insert (l : List (Str × Nat)) (f : Nat → Val) :
    ∀ (kw : KV) (n : Str),
    kvLookup (l.foldl (fun acc p => kvInsert acc p.1 (f p.2)) kw) n
      = ((l.filter (fun p => p.1 = n)).getLast?.map (fun p => f p.2)).or
          (kvLookup kw n) := by
  induction l with
  | nil => intro kw n; simp [Option.or]
  | cons p t ih =>
      intro kw n
      obtain ⟨k, i⟩ := p
      rw [List.foldl_cons, ih]
      by_cases hk : k = n
      · subst hk
        have hf : List.filter (fun p => decide (p.1 = k)) ((k, i) :: t)
            = (k, i) :: List.filter (fun p => decide (p.1 = k)) t := by
          rw [List.filter_cons]
          simp
        rw [hf, getLast?_cons_or, kvLookup_kvInsert]
        simp only [if_pos rfl]
        cases hlast : (List.filter (fun p => decide (p.1 = k)) t).getLast? with
        | none => simp [hlast, Option.or]
        | some x => simp [hlast, Option.or]
      · have hf : List.filter (fun p => decide (p.1 = n)) ((k, i) :: t)
            = List.filter (fun p => decide (p.1 = n)) t := by
          rw [List.filter_cons]
          simp [hk]
        rw [hf, kvLookup_kvInsert]
        have hnk : ¬ (n = k) := fun hc => hk hc.symm
        simp only [if_neg hnk]

/-- A hand-compiled instance of the regex `(\d+)`: `re.search` semantics,
leftmost match, greedy quantifier; one unnamed capturing group. -/
def digitSearch : Str → Option Str
  | [] => none
  | c :: r => if isDig c then some (c :: r.takeWhile isDig) else digitSearch r

/-- The compiled `RegexRoute` for the pattern `(\d+)` with callback `cb`. -/
def digitRx {H : Type} (cb : H) : RxRoute H where
  groups := 1
  names := []
  search := fun p => (digitSearch p).map (fun m => fun i => if i = 1 then some m else none)
  cb := cb

end Ice

namespace Ice

/-! ## Demonstration values used by the claim theorems -/

/-- A regex compiler stub for routers that register no regex routes. -/
def rxcNone {H : Type} : Str → Except Unit (RxRoute H) := fun _ => .error ()

/-- `spec[1:-1].split(':', 1)[0]`: the name of a wildcard token. -/
def specName (spec : Str) : Str := (splitSpec ((spec.drop 1).dropLast)).1

/-- The (defaulted) type tag of a wildcard token. -/
def specTypeTag (spec : Str) : Str := (splitSpec ((spec.drop 1).dropLast)).2

/-- A router with an overlapping wildcard route on each side of a literal
registration for the same method and path. -/
def demoLitRouter : Router Nat :=
  foldAdds rxcNone Router.empty
    [("GET".data, "/user/<id>".data, 1),
     ("GET".data, "/user/42".data, 2),
     ("GET".data, "/user/<id:int>".data, 3)]

/-- The spec's overlapping-wildcard example: `/user/<id>` registered
before `/user/<id:int>` for GET. -/
def demoWcRouter : Router Nat :=
  foldAdds rxcNone Router.empty
    [("GET".data, "/user/<id>".data, 1),
     ("GET".data, "/user/<id:int>".data, 2)]

/-- The router state after one failed `add`: registering
`/x/<123abc>` for DELETE raises `RouteError`, but the `defaultdict`
lookup has already created the `DELETE` key in the wildcard tier. -/
def demoFailedRouter : Router Nat :=
  (routerAdd rxcNone Router.empty "DELETE".data "/x/<123abc>".data 0).1

/-- C1: for every router state, method and path, an exact hit in the
method's literal index makes `resolve` return that entry's callback with
empty positional and named results, whatever the wildcard and regex
tiers hold and in whatever order routes were registered.  The second
conjunct shows it concretely: the literal `/user/42` wins although a
matching wildcard route was registered later. -/
theorem literal_exact_match_wins :
    (∀ (H : Type) (rt : Router H) (method path : Str) (cb : H),
      lookupLit rt method path = some cb →
      resolve rt method path = .ok (some (cb, [], []))) ∧
    (lookupLit demoLitRouter "GET".data "/user/42".data = some 2 ∧
      resolve demoLitRouter "GET".data "/user/42".data = .ok (some (2, [], []))) := by
  constructor
  · intro H rt method path cb h
    unfold resolve
    rw [h]
  · exact ⟨rfl, rfl⟩

/-- C2: with no literal hit, `resolve` scans the method's wildcard
routes in reverse registration order and returns the first match; only
if none matches does it scan the regex routes, also reversed; with no
match anywhere it returns `none`.  Hence a later-registered wildcard
route shadows an earlier one wherever it matches, as the final conjunct
shows on the spec's `/user/<id>` / `/user/<id:int>` example: `GET
/user/42` resolves to the `int`-typed route's callback. -/
theorem nonliteral_reverse_scan :
    (∀ (H : Type) (rt : Router H) (method path : Str)
      (l1 l2 : List (WcRoute H)) (r : WcRoute H) (v : H × List Val × KV),
      lookupLit rt method path = none →
      (dictFind? rt.wc method).getD [] = l1 ++ r :: l2 →
      wcMatch r path = .ok (some v) →
      (∀ r2 ∈ l2, wcMatch r2 path = .ok none) →
      resolve rt method path = .ok (some v)) ∧
    (∀ (H : Type) (rt : Router H) (method path : Str)
      (l1 l2 : List (RxRoute H)) (x : RxRoute H) (v : H × List Val × KV),
      lookupLit rt method path = none →
      (∀ r ∈ (dictFind? rt.wc method).getD [], wcMatch r path = .ok none) →
      (dictFind? rt.rx method).getD [] = l1 ++ x :: l2 →
      rxMatch x path = some v →
      (∀ x2 ∈ l2, rxMatch x2 path = none) →
      resolve rt method path = .ok (some v)) ∧
    (∀ (H : Type) (rt : Router H) (method path : Str),
      lookupLit rt method path = none →
      (∀ r ∈ (dictFind? rt.wc method).getD [], wcMatch r path = .ok none) →
      (∀ x ∈ (dictFind? rt.rx method).getD [], rxMatch x path = none) →
      resolve rt method path = .ok none) ∧
    resolve demoWcRouter "GET".data "/user/42".data
      = .ok (some (2, [], [("id".data, .i 42)])) := by
  refine ⟨?_, ?_, ?_, rfl⟩
  · intro H rt method path l1 l2 r v hlit hwl hr hl2
    unfold resolve
    rw [hlit]
    unfold resolveNonLiteral
    dsimp only
    rw [hwl, List.reverse_append, List.reverse_cons, List.append_assoc,
      scanWc_append]
    rw [scanWc_all_none l2.reverse path
      (fun r2 hr2 => hl2 r2 (List.mem_reverse.mp hr2))]
    simp only [List.singleton_append, scanWc, hr]
  · intro H rt method path l1 l2 x v hlit hwc hrl hx hl2
    unfold resolve
    rw [hlit]
    unfold resolveNonLiteral
    dsimp only
    rw [scanWc_all_none _ path
      (fun r2 hr2 => hwc r2 (List.mem_reverse.mp hr2))]
    unfold scanRx
    rw [hrl, List.reverse_append, List.reverse_cons, List.append_assoc,
      findSome?_append]
    rw [findSome?_all_none _ l2.reverse
      (fun x2 hx2 => hl2 x2 (List.mem_reverse.mp hx2))]
    simp only [Option.none_or, List.singleton_append, List.findSome?, hx]
  · intro H rt method path hlit hwc hrx
    unfold resolve
    rw [hlit]
    unfold resolveNonLiteral
    dsimp only
    rw [scanWc_all_none _ path
      (fun r2 hr2 => hwc r2 (List.mem_reverse.mp hr2))]
    unfold scanRx
    rw [findSome?_all_none _ _
      (fun x2 hx2 => hrx x2 (List.mem_reverse.mp hx2))]

/-- C3: pattern classification: an explicit `regex:` / `wildcard:` /
`literal:` prefix wins and is stripped with no content inspection;
otherwise a pattern with a `(...)` group (no newline between the
parentheses, as Python `.` does not match newline) is regex, else one
with a `<[^<>/]*>` token is wildcard, else literal.  The scanner
equivalences state the two heuristics exactly, and the final conjuncts
show the tie-break: a pattern with both a group and an angle-bracket
token is regex, not wildcard. -/
theorem pattern_classification :
    (∀ p : Str, normalizePattern ("regex:".data ++ p) = (.rx, p)) ∧
    (∀ p : Str, normalizePattern ("wildcard:".data ++ p) = (.wc, p)) ∧
    (∀ p : Str, normalizePattern ("literal:".data ++ p) = (.lit, p)) ∧
    (∀ p : Str,
      ("regex:".data).isPrefixOf p = false →
      ("wildcard:".data).isPrefixOf p = false →
      ("literal:".data).isPrefixOf p = false →
      normalizePattern p =
        (if groupScan p then .rx else if wcScan p then .wc else .lit, p)) ∧
    (∀ p : Str, groupScan p = true ↔
      ∃ a m b : Str, p = a ++ '(' :: (m ++ ')' :: b) ∧
        m.all (fun c => c ≠ '\n') = true) ∧
    (∀ p : Str, wcScan p = true ↔
      ∃ a m b : Str, p = a ++ '<' :: (m ++ '>' :: b) ∧ m.all isPlain = true) ∧
    normalizePattern "/users/<id>(x)".data = (.rx, "/users/<id>(x)".data) ∧
    normalizePattern "/users/<id>".data = (.wc, "/users/<id>".data) ∧
    normalizePattern "/users/42".data = (.lit, "/users/42".data) := by
  refine ⟨?_, ?_, ?_, ?_, groupScan_iff, wcScan_iff, by decide, by decide, by decide⟩
  · intro p
    have hpre : ("regex:".data).isPrefixOf ("regex:".data ++ p) = true :=
      List.isPrefixOf_iff_prefix.mpr (List.prefix_append _ _)
    unfold normalizePattern
    rw [if_pos hpre]
    have hdrop : ("regex:".data ++ p).drop 6 = p := by
      rw [show (6 : Nat) = ("regex:".data).length from rfl]
      exact List.drop_left _ _
    rw [hdrop]
  · intro p
    have hno : ("regex:".data).isPrefixOf ("wildcard:".data ++ p) = false := rfl
    have hpre : ("wildcard:".data).isPrefixOf ("wildcard:".data ++ p) = true :=
      List.isPrefixOf_iff_prefix.mpr (List.prefix_append _ _)
    unfold normalizePattern
    rw [hno, if_neg (by simp), if_pos hpre]
    have hdrop : ("wildcard:".data ++ p).drop 9 = p := by
      rw [show (9 : Nat) = ("wildcard:".data).length from rfl]
      exact List.drop_left _ _
    rw [hdrop]
  · intro p
    have hno1 : ("regex:".data).isPrefixOf ("literal:".data ++ p) = false := rfl
    have hno2 : ("wildcard:".data).isPrefixOf ("literal:".data ++ p) = false := rfl
    have hpre : ("literal:".data).isPrefixOf ("literal:".data ++ p) = true :=
      List.isPrefixOf_iff_prefix.mpr (List.prefix_append _ _)
    unfold normalizePattern
    rw [hno1, if_neg (by simp), hno2, if_neg (by simp), if_pos hpre]
    have hdrop : ("literal:".data ++ p).drop 8 = p := by
      rw [show (8 : Nat) = ("literal:".data).length from rfl]
      exact List.drop_left _ _
    rw [hdrop]
  · intro p h1 h2 h3
    unfold normalizePattern
    rw [h1, h2, h3]
    by_cases hg : groupScan p
    · simp [hg]
    · by_cases hw : wcScan p <;> simp [hg, hw]

/-- C4 counterexample: the claim says the `path` wildcard type accepts
any characters including slash, at least one; but its fragment is the
Python regex `(.+)`, whose `.` does not match a newline, so the nonempty
segment consisting of one newline is rejected — declaratively,
operationally, and at route level. -/
theorem path_type_rejects_newline :
    fragLang .path "\n".data = false ∧
    candidates .path "\n".data = [] ∧
    ("\n".data : Str) ≠ [] ∧
    (wcCompile "/item/<n:path>".data (0 : Nat)).toOption.map
      (fun r => wcMatch r "/item/\n".data) = some (.ok none) := by
  exact ⟨by decide, by decide, by decide, rfl⟩

/-- C4 (amended): each wildcard type accepts exactly its documented
segment language, with `path` amended to exclude newline: a capture is
producible by a type's fragment from the front of a subject exactly when
it is a prefix of the subject lying in the fragment's language (`str`:
nonempty without slash; `path`: nonempty without newline; `int`: `0` or
a no-leading-zero positive; `+int`: a no-leading-zero positive; `-int`:
`0` or an optionally negated no-leading-zero positive).  Concretely,
`/item/<n:int>` matches `/item/0` and `/item/7` but not `/item/007`, and
`/item/<n:+int>` does not match `/item/0`. -/
theorem wildcard_type_languages :
    (∀ (t : WType) (s cap : Str),
      cap ∈ candidates t s ↔ cap <+: s ∧ fragLang t cap = true) ∧
    (wcCompile "/item/<n:int>".data (0 : Nat)).toOption.map
      (fun r => wcMatch r "/item/0".data)
      = some (.ok (some (0, [], [("n".data, .i 0)]))) ∧
    (wcCompile "/item/<n:int>".data (0 : Nat)).toOption.map
      (fun r => wcMatch r "/item/7".data)
      = some (.ok (some (0, [], [("n".data, .i 7)]))) ∧
    (wcCompile "/item/<n:int>".data (0 : Nat)).toOption.map
      (fun r => wcMatch r "/item/007".data) = some (.ok none) ∧
    (wcCompile "/item/<n:+int>".data (0 : Nat)).toOption.map
      (fun r => wcMatch r "/item/0".data) = some (.ok none) := by
  exact ⟨candidates_iff, rfl, rfl, rfl, rfl⟩

/-- C5: extraction walks the wildcards in capture order: a wildcard
named `!` contributes to neither result; an empty-named wildcard appends
its converted value to the positional list in left-to-right order; any
other name maps to its converted value with later duplicates overwriting
earlier ones.  The final conjunct is the spec's `/files/<!>/<name>`
example: empty positional results and only `name` in the mapping. -/
theorem extraction_results :
    (∀ (pairs : List (Wildcard × Str)) (args0 : List Val) (kw0 : KV)
      (res : List Val × KV),
      extractGo pairs args0 kw0 = some res →
      res.1 = args0 ++ specPositional pairs) ∧
    (∀ (pairs : List (Wildcard × Str)) (args0 : List Val) (kw0 : KV)
      (res : List Val × KV),
      extractGo pairs args0 kw0 = some res → ∀ n : Str, n ≠ [] → n ≠ ['!'] →
      kvLookup res.2 n = (specNamedLast pairs n).or (kvLookup kw0 n)) ∧
    (wcCompile "/files/<!>/<name>".data (0 : Nat)).toOption.map
      (fun r => wcMatch r "/files/abc/def".data)
      = some (.ok (some (0, [], [("name".data, .s "def".data)]))) := by
  exact ⟨extractGo_args, extractGo_kw, rfl⟩

/-- C6 counterexample: parsing the wildcard token `<ab\n>` succeeds with
the name `ab\n`, although that name is neither empty, `!`, nor an
identifier: the name pattern is anchored `^...$` but run with `search`,
and Python `$` also matches just before one trailing newline. -/
theorem wildcard_name_newline_accepted :
    wildcardInit "<ab\n>".data = .ok ⟨"ab\n".data, .str⟩ ∧
    nameCore "ab\n".data = false := by
  exact ⟨rfl, by decide⟩

/-- C6 (amended): parsing a wildcard token fails exactly when the name —
after stripping at most one trailing newline — is not empty, not `!`,
and not an identifier, or when the (non-defaulted) type tag is not one
of the five recognized tags; the error carries the offending name or
type together with the full spec string.  The fourth conjunct makes the
trailing-newline allowance explicit, and the last shows the `123abc`
example failing at `add` time with no route registered in any tier. -/
theorem wildcard_parse_errors :
    (∀ spec : Str, (∃ e, wildcardInit spec = .error e) ↔
      (nameOk (specName spec) = false ∨ wtypeOfTag (specTypeTag spec) = none)) ∧
    (∀ spec : Str, nameOk (specName spec) = false →
      wildcardInit spec = .error (.invalidName (specName spec) spec)) ∧
    (∀ spec : Str, nameOk (specName spec) = true →
      wtypeOfTag (specTypeTag spec) = none →
      wildcardInit spec = .error (.invalidType (specTypeTag spec) spec)) ∧
    (∀ n : Str, nameOk n = true ↔
      (nameCore n = true ∨ ∃ t : Str, n = t ++ ['\n'] ∧ nameCore t = true)) ∧
    routerAdd rxcNone Router.empty "DELETE".data "/x/<123abc>".data (0 : Nat)
      = (⟨[], [("DELETE".data, [])], []⟩,
         some (.route (.invalidName "123abc".data "<123abc>".data))) := by
  refine ⟨?_, ?_, ?_, ?_, rfl⟩
  · intro spec
    unfold wildcardInit specName specTypeTag
    dsimp only
    constructor
    · rintro ⟨e, he⟩
      by_cases hn : nameOk (splitSpec ((spec.drop 1).dropLast)).1 = true
      · rw [if_pos hn] at he
        cases ht : wtypeOfTag (splitSpec ((spec.drop 1).dropLast)).2 with
        | some t => rw [ht] at he; simp at he
        | none => exact Or.inr rfl
      · left
        cases h2 : nameOk (splitSpec ((spec.drop 1).dropLast)).1 with
        | true => exact absurd h2 hn
        | false => rfl
    · rintro (hn | ht)
      · rw [if_neg (by rw [hn]; simp)]
        exact ⟨_, rfl⟩
      · by_cases hn : nameOk (splitSpec ((spec.drop 1).dropLast)).1 = true
        · rw [if_pos hn, ht]
          exact ⟨_, rfl⟩
        · rw [if_neg hn]
          exact ⟨_, rfl⟩
  · intro spec hn
    unfold specName at hn
    unfold wildcardInit specName
    dsimp only
    rw [if_neg (by rw [hn]; simp)]
  · intro spec hn ht
    unfold specName at hn
    unfold specTypeTag at ht
    unfold wildcardInit specTypeTag
    dsimp only
    rw [if_pos hn, ht]
  · intro n
    unfold nameOk
    rw [Bool.or_eq_true]
    constructor
    · rintro (h | h)
      · exact Or.inl h
      · right
        cases hr : n.reverse with
        | nil => rw [hr] at h; simp at h
        | cons c rest =>
            rw [hr] at h
            dsimp only at h
            by_cases hc : c = '\n'
            · subst hc
              rw [if_pos rfl] at h
              refine ⟨rest.reverse, ?_, h⟩
              have h2 := congrArg List.reverse hr
              simpa using h2
            · rw [if_neg hc] at h
              simp at h
    · rintro (h | ⟨t, rfl, ht⟩)
      · exact Or.inl h
      · right
        rw [List.reverse_append]
        simpa using ht

/-- C7 counterexample: after a single failed `add('DELETE',
'/x/<123abc>')`, `contains_method 'DELETE'` is already true although no
route of any tier was registered: the `defaultdict` lookup created the
method key with an empty list before the wildcard constructor raised. -/
theorem contains_method_after_failed_add :
    containsMethod demoFailedRouter "DELETE".data = true ∧
    dictFind? demoFailedRouter.lit "DELETE".data = none ∧
    dictFind? demoFailedRouter.wc "DELETE".data = some [] ∧
    dictFind? demoFailedRouter.rx "DELETE".data = none := by
  exact ⟨rfl, rfl, rfl, rfl⟩

/-- C7 (amended): for every state reachable by a sequence of `add` calls
(failed ones included), `contains_method(method)` is true iff at least
one `add` call — successful or not — used that method; in particular it
is false for a method never passed to `add`, but it can be true with
zero entries in every tier. -/
theorem contains_method_iff_added :
    ∀ (H : Type) (rxc : Str → Except Unit (RxRoute H))
      (calls : List (Str × Str × H)) (m : Str),
    containsMethod (foldAdds rxc Router.empty calls) m = true ↔
      ∃ c ∈ calls, c.1 = m := by
  intro H rxc calls m
  rw [foldAdds_containsMethod]
  have h0 : containsMethod (H := H) Router.empty m = false := rfl
  rw [h0]
  constructor
  · rintro (h | h)
    · exact absurd h (by simp)
    · exact h
  · exact fun h => Or.inr h

/-- C8: regex-route extraction: no search hit means no match; on a hit
the positional results are the values of the unnamed group indices —
exactly the indices in `1..groups` not claimed by a named group, in
strictly ascending order — and the named results map each group name to
its group's value, with values taken verbatim (a string or Python
`None`, never an integer: no type coercion).  The last conjunct runs the
hand-compiled regex `(\d+)` against `/users/42`, whose match starts at
position 7: search semantics, not full-string matching. -/
theorem regex_route_extraction :
    (∀ (H : Type) (r : RxRoute H) (path : Str),
      r.search path = none → rxMatch r path = none) ∧
    (∀ (H : Type) (r : RxRoute H) (path : Str) (g : Nat → Option Str),
      r.search path = some g →
      rxMatch r path = some (r.cb, (rxArgIdx r).map (fun i => optVal (g i)),
        r.names.foldl (fun kw p => kvInsert kw p.1 (optVal (g p.2))) [])) ∧
    (∀ (H : Type) (r : RxRoute H) (i : Nat),
      i ∈ rxArgIdx r ↔ 1 ≤ i ∧ i ≤ r.groups ∧ i ∉ r.names.map (·.2)) ∧
    (∀ (H : Type) (r : RxRoute H), List.Pairwise (· < ·) (rxArgIdx r)) ∧
    (∀ (H : Type) (r : RxRoute H) (g : Nat → Option Str) (n : Str),
      kvLookup (r.names.foldl (fun kw p => kvInsert kw p.1 (optVal (g p.2))) []) n
        = (r.names.filter (fun p => p.1 = n)).getLast?.map
            (fun p => optVal (g p.2))) ∧
    (∀ (o : Option Str) (z : Int), optVal o ≠ .i z) ∧
    rxMatch (digitRx (0 : Nat)) "/users/42".data
      = some (0, [.s "42".data], []) := by
  refine ⟨?_, ?_, ?_, ?_, ?_, ?_, rfl⟩
  · intro H r path h
    unfold rxMatch
    rw [h]
  · intro H r path g h
    unfold rxMatch
    rw [h]
  · intro H r i
    exact mem_rxArgIdx r i
  · intro H r
    exact rxArgIdx_sorted r
  · intro H r g n
    have h := kvLookup_foldl_insert r.names (fun x => optVal (g x)) [] n
    simpa [Option.or_none] using h
  · intro o z
    cases o <;> simp [optVal]

/-- C9: resolution never raises: for every router state, method and
path, `resolve` returns a result or the no-match value, never an error —
in particular `Wildcard.value`'s integer conversion cannot fail, because
every capture of an `int`/`+int`/`-int` fragment lies in that fragment's
language, on which `int()` succeeds. -/
theorem resolve_never_raises :
    (∀ (H : Type) (rt : Router H) (method path : Str),
      resolve rt method path ≠ Except.error ()) ∧
    (∀ (H : Type) (r : WcRoute H) (path : Str),
      wcMatch r path ≠ Except.error ()) ∧
    (∀ (t : WType) (cap : Str), fragLang t cap = true →
      ∃ v, wvalue t cap = some v) := by
  exact ⟨fun H rt method path => resolve_ne_error rt method path,
    fun H r path => wcMatch_ne_error r path,
    wvalue_of_fragLang⟩

/-- C10: round-trip: for each integer wildcard type and every segment
its fragment accepts, converting the segment with `Wildcard.value` and
rendering the resulting integer back as a canonical decimal string
(minus sign for negatives, no leading zeros) recovers the segment — the
no-leading-zero fragments make the conversion injective and lossless. -/
theorem int_wildcard_roundtrip :
    (∀ s : Str, fragLang .int s = true →
      ∃ i : Int, wvalue .int s = some (.i i) ∧ intCanon i = s) ∧
    (∀ s : Str, fragLang .pint s = true →
      ∃ i : Int, wvalue .pint s = some (.i i) ∧ intCanon i = s) ∧
    (∀ s : Str, fragLang .nint s = true →
      ∃ i : Int, wvalue .nint s = some (.i i) ∧ intCanon i = s) := by
  refine ⟨?_, ?_, ?_⟩
  · intro s h
    simp only [fragLang, Bool.or_eq_true, decide_eq_true_eq] at h
    rcases h with rfl | h
    · exact ⟨0, rfl, rfl⟩
    · refine ⟨(natOfDigits s : Nat), ?_, intCanon_pos s h⟩
      simp [wvalue, parseInt_posNum s h]
  · intro s h
    simp only [fragLang] at h
    refine ⟨(natOfDigits s : Nat), ?_, intCanon_pos s h⟩
    simp [wvalue, parseInt_posNum s h]
  · intro s h
    simp only [fragLang, Bool.or_eq_true, decide_eq_true_eq] at h
    rcases h with (rfl | h) | h
    · exact ⟨0, rfl, rfl⟩
    · cases s with
      | nil => simp [fragLang.negLang] at h
      | cons c t =>
          simp only [fragLang.negLang, Bool.and_eq_true, decide_eq_true_eq] at h
          obtain ⟨rfl, ht⟩ := h
          refine ⟨-(natOfDigits t : Nat), ?_, intCanon_neg t ht⟩
          cases t with
          | nil => simp [posNum] at ht
          | cons d u =>
              simp only [posNum, Bool.and_eq_true] at ht
              have hcond : (d :: u) ≠ [] ∧ (d :: u).all isDig = true := by
                refine ⟨by simp, ?_⟩
                simp only [List.all_cons, Bool.and_eq_true]
                exact ⟨isPosDig_isDig d ht.1, ht.2⟩
              simp [wvalue, parseInt, hcond]
    · refine ⟨(natOfDigits s : Nat), ?_, intCanon_pos s h⟩
      simp [wvalue, parseInt_posNum s h]

end Ice
